import Mathlib

/-!
Verification development for the lead-mode engine of `kwant/physics/leads.py`.

The Python module computes propagating and evanescent modes of a periodic
lead and the self-energy a lead imposes on an attached region.  Dense
linear-algebra kernels (SVD, LU factorization with reciprocal condition
number, Schur decompositions, eigensolvers, square roots) are external
collaborators; their outputs appear here as explicit oracle inputs, while
all control flow, thresholds, slicing and sorting logic of the module is
embedded directly.

Three embeddings are used:
* `Kwant` : a list-level model of `setup_linsys`, the check/sort tail of
  `make_proper_modes`, and `modes`, over matrices of pairs drawn from an
  arbitrary linearly ordered commutative ring, fully executable.
* `KwantSE` : a typed-matrix model of `StabilizedModes.selfenergy` over an
  arbitrary field with a star operation, with an executable linear solver.
* `KwantSq` : the closed-form `square_selfenergy` over real and complex
  numbers.
-/

namespace Kwant

variable (K : Type) [LinearOrderedCommRing K]

/-- Model of one complex matrix entry: explicit real and imaginary parts,
mirroring the real/imaginary component view used by `complex_any`.  The
scalar type `K` is any linearly ordered commutative ring; theorems are
stated generically and evaluated on integer instances. -/
structure CQ where
  re : K
  im : K
deriving DecidableEq

instance : Zero (CQ K) := ⟨⟨0, 0⟩⟩

/-- Errors raised by the module, in source order of appearance:
shape validation in `modes`, the degenerate-hopping rejection and the
flat-band failure in `setup_linsys`, and the two failures of
`make_proper_modes`. -/
inductive LeadsError where
  | shape_mismatch
  | degenerate_hopping
  | flat_band
  | zero_velocity
  | mode_count_mismatch
deriving DecidableEq

instance {e a : Type} [DecidableEq e] [DecidableEq a] : DecidableEq (Except e a) :=
  fun x y =>
    match x, y with
    | .error u, .error v => decidable_of_iff (u = v) (by simp)
    | .ok u, .ok v => decidable_of_iff (u = v) (by simp)
    | .error _, .ok _ => isFalse (by simp)
    | .ok _, .error _ => isFalse (by simp)

variable {K}

/-- Number of columns of a list-of-rows matrix (numpy `shape[1]` for a
rectangular array with at least one row). -/
def ncols (M : List (List (CQ K))) : ℕ := (M.headD []).length

/-- Model of `complex_any`: the array has some entry with a nonzero real or
imaginary part. -/
def complex_any (M : List (List (CQ K))) : Bool :=
  M.any fun row => row.any fun x => decide (x ≠ 0)

/-- Model of the dtype-realness test after the real-downcast step (lines
184-186 plus `matrices_real`): an array is treated as real when every
imaginary part vanishes. -/
def all_real (M : List (List (CQ K))) : Bool :=
  M.all fun row => row.all fun x => decide (x.im = 0)

/-- Outputs of the external dense-linear-algebra collaborator consumed by
`setup_linsys`, `unified_eigenproblem` and `make_proper_modes`: the
singular values of the hopping, the square-root-rescaled SVD factor `v`,
the reciprocal condition numbers of the three LU factorizations, the
machine epsilon of the common dtype, and the eigen-data of the propagating
subspace (velocities from the velocity-operator diagonalization, momenta
from the eigenvalue angles, plus the assembled basis arrays). -/
structure Oracle (K : Type) where
  s : List K
  vScaled : List (List (CQ K))
  rcondCell : K
  rcondReg : K
  rcondB : K
  epsMach : K
  propVelocities : List K
  propMomenta : List K
  waveFunctions : List (List (CQ K))
  vecsUpper : List (List (CQ K))
  vecsLower : List (List (CQ K))

/-- Count of singular values exceeding the relative threshold
`eps * s[0]` (line 196: `np.sum(s > eps * s[0])`). -/
def n_nonsing (s : List K) (eps : K) : ℕ :=
  (s.filter fun x => decide (x > eps * s.headD 0)).length

/-- Decision of line 244: add the anti-Hermitian term when the first
stabilization flag is `True`, or when it is `None` and the matrices are not
real. -/
def add_imaginary (stab0 : Option Bool) (matrices_real : Bool) : Bool :=
  decide (stab0 = some true) || (decide (stab0 = none) && !matrices_real)

/-- Result of `setup_linsys` at the level of detail the claims need: the
`v` output (`None` on the fast path, the sliced rescaled SVD factor
`v[:m]` on the general path), whether the self-energy-like regularizing
term was added, and whether the generalized problem was reduced to a
regular one. -/
structure SetupOut (K : Type) where
  vOut : Option (List (List (CQ K)))
  needToStabilize : Bool
  reduced : Bool
deriving DecidableEq

/-- Model of `setup_linsys` (lines 133-333).  The zero-hopping rejection,
the singular-value count, the fast-path/general-path branch, the
regularization decision, the flat-band failure and the reduction decision
are embedded; the numeric outputs of SVD, LU and rcond come from the
oracle.  The pencil matrices themselves are not needed by any claim and
are not modelled. -/
def setup_linsys (h_cell h_hop : List (List (CQ K))) (tol : K)
    (stabilization : Option (Option Bool × Bool)) (orc : Oracle K) :
    Except LeadsError (SetupOut K) :=
  let n := h_cell.length
  let m := ncols h_hop
  if ¬ complex_any h_hop then
    .error .degenerate_hopping
  else
    let eps := orc.epsMach * tol
    if n_nonsing orc.s eps = n ∧ stabilization = none then
      .ok ⟨none, false, true⟩
    else
      let stab := stabilization.getD (none, false)
      let matrices_real := all_real h_cell && all_real h_hop
      let addIm := add_imaginary stab.1 matrices_real
      let need_to_stabilize := addIm || decide (orc.rcondCell < eps)
      if need_to_stabilize && decide (orc.rcondReg < eps) then
        .error .flat_band
      else
        let v_out := orc.vScaled.take m
        let reduced := stab.2 || decide (orc.rcondB > eps * tol)
        .ok ⟨some v_out, need_to_stabilize, reduced⟩

/-- Sign function of numpy, `np.sign`. -/
def np_sign (x : K) : K := if x < 0 then -1 else if x = 0 then 0 else 1

/-- Absolute value, written so that it evaluates by kernel reduction. -/
def np_abs (x : K) : K := if x < 0 then -x else x

/-- Ascending lexicographic comparison on the composite sort key of line
506: primary `np.sign(velocities)`, secondary
`-np.sign(velocities) * momenta`, tertiary `velocities`; `np.lexsort`
sorts ascending with the last listed key as the primary one. -/
def mode_le (a b : K × K) : Prop :=
  np_sign a.1 < np_sign b.1 ∨
    (np_sign a.1 = np_sign b.1 ∧
      (-np_sign a.1 * a.2 < -np_sign b.1 * b.2 ∨
        (-np_sign a.1 * a.2 = -np_sign b.1 * b.2 ∧ a.1 ≤ b.1)))

instance : DecidableRel (mode_le (K := K)) :=
  fun _ _ => inferInstanceAs (Decidable (_ ∨ _))

/-- Model of the check-and-sort tail of `make_proper_modes` (lines
499-518).  The cluster analysis, QR orthogonalization and diagonalization
of the velocity operator are collaborator work producing the `velocities`
and `momenta` arrays consumed here; each mode is carried as its
(velocity, momentum) pair.  The zero-velocity check, the mode-count check
and the `np.lexsort` ordering are embedded; the final division of the wave
functions by `sqrt(abs(velocities))` rescales only the wave-function
arrays, leaving velocities and momenta unchanged. -/
def make_proper_modes (velocities momenta : List K) (vel_eps : K) :
    Except LeadsError (List (K × K)) :=
  if velocities.any fun v => decide (np_abs v < vel_eps) then
    .error .zero_velocity
  else if ¬ 2 * (velocities.countP fun v => decide (v < 0)) = velocities.length then
    .error .mode_count_mismatch
  else
    .ok (List.insertionSort mode_le (velocities.zip momenta))

/-- Combined result of `modes`: the fields of `PropagatingModes` followed
by the fields of `StabilizedModes`. -/
structure ModesOut (K : Type) where
  wave_functions : List (List (CQ K))
  velocities : List K
  momenta : List K
  vecs : List (List (CQ K))
  vecslmbdainv : List (List (CQ K))
  nmodes : ℕ
  sqrt_hop : Option (List (List (CQ K)))
deriving DecidableEq

/-- Model of `modes` (lines 521-607): shape validation, the zero-hopping
short circuit returning empty mode sets, and otherwise the pipeline
`setup_linsys` / `unified_eigenproblem` (collaborator) /
`make_proper_modes`, with `sqrt_hop` taken from the `v` output of
`setup_linsys` and `nmodes` equal to half the number of propagating
eigenvalues. -/
def modes (h_cell h_hop : List (List (CQ K))) (tol : K)
    (stabilization : Option (Option Bool × Bool)) (orc : Oracle K) :
    Except LeadsError (ModesOut K) :=
  let m := ncols h_hop
  let n := h_cell.length
  if ¬ (h_cell.length = ncols h_cell ∧ h_cell.length = h_hop.length) then
    .error .shape_mismatch
  else if ¬ complex_any h_hop then
    .ok ⟨List.replicate n [], [], [], [], [], 0, some (List.replicate m [])⟩
  else
    match setup_linsys h_cell h_hop tol stabilization orc with
    | .error e => .error e
    | .ok ls =>
      match make_proper_modes orc.propVelocities orc.propMomenta
          (orc.epsMach * tol) with
      | .error e => .error e
      | .ok sorted =>
        .ok ⟨orc.waveFunctions, sorted.map (·.1), sorted.map (·.2),
             orc.vecsLower, orc.vecsUpper,
             orc.propVelocities.length / 2, ls.vOut⟩

end Kwant

namespace KwantSE

/-- Executable model of the dense solver `la.solve`: for an invertible
square matrix `A` it returns `A⁻¹ * B`, computed through the adjugate so
that the definition stays executable.  `la.solve` raises on singular
input; the claims only evaluate it on invertible blocks. -/
def msolve {K : Type} [Field K] [DecidableEq K] {n p : ℕ}
    (A : Matrix (Fin n) (Fin n) K) (B : Matrix (Fin n) (Fin p) K) :
    Matrix (Fin n) (Fin p) K :=
  (A.det)⁻¹ • (A.adjugate * B)

/-- Model of the `StabilizedModes` container (lines 71-110).  `vecs` and
`vecslmbdainv` have `nmodes + n` columns: by the documented invariant the
first `nmodes` columns are the incoming propagating modes, the next
`nmodes` the outgoing propagating modes, and the remaining `n - nmodes`
the evanescent Schur vectors.  `sqrt_hop` is `v sqrt(s)` restricted to the
first `m` rows, or `none` when the hopping was inverted directly. -/
structure StabilizedModes (K : Type) [Field K] (n nmodes m : ℕ) where
  vecs : Matrix (Fin n) (Fin (nmodes + n)) K
  vecslmbdainv : Matrix (Fin n) (Fin (nmodes + n)) K
  sqrt_hop : Option (Matrix (Fin m) (Fin n) K)

/-- Column slice `M[:, nmodes:]` used by `selfenergy` (lines 124-125). -/
def sliceFrom {K : Type} [Field K] {n nmodes : ℕ}
    (M : Matrix (Fin n) (Fin (nmodes + n)) K) : Matrix (Fin n) (Fin n) K :=
  Matrix.of fun i j => M i (Fin.natAdd nmodes j)

/-- Model of `StabilizedModes.selfenergy` (lines 112-129): with
`v = sqrt_hop`, `vecs = self.vecs[:, nmodes:]` and `vecslmbdainv =
self.vecslmbdainv[:, nmodes:]`, return
`dot(v, dot(vecs, solve(vecslmbdainv, v^H)))` when `v` is present and
`solve(vecslmbdainv^T, vecs^T)^T` otherwise.  The two branches have
different shapes, mirrored by the sum type. -/
def selfenergy {K : Type} [Field K] [StarRing K] [DecidableEq K]
    {n nmodes m : ℕ} (S : StabilizedModes K n nmodes m) :
    Matrix (Fin m) (Fin m) K ⊕ Matrix (Fin n) (Fin n) K :=
  match S.sqrt_hop with
  | some v =>
      .inl (v * (sliceFrom S.vecs *
        msolve (sliceFrom S.vecslmbdainv) v.conjTranspose))
  | none =>
      .inr ((msolve (sliceFrom S.vecslmbdainv).transpose
        (sliceFrom S.vecs).transpose).transpose)

/-- Formula named by the specification for the singular-hopping branch,
applied to a pair of blocks of the stabilized arrays. -/
def sigma_formula_sqrt {K : Type} [Field K] [StarRing K] [DecidableEq K]
    {n m : ℕ} (v : Matrix (Fin m) (Fin n) K)
    (vecsBlock vecslBlock : Matrix (Fin n) (Fin n) K) :
    Matrix (Fin m) (Fin m) K :=
  v * (vecsBlock * msolve vecslBlock v.conjTranspose)

/-- Formula named by the specification for the invertible-hopping branch,
applied to a pair of blocks of the stabilized arrays. -/
def sigma_formula_plain {K : Type} [Field K] [DecidableEq K] {n : ℕ}
    (vecsBlock vecslBlock : Matrix (Fin n) (Fin n) K) :
    Matrix (Fin n) (Fin n) K :=
  (msolve vecslBlock.transpose vecsBlock.transpose).transpose

end KwantSE

namespace KwantSq

open scoped Real

/-- Model of `math.copysign x y`: the magnitude of `x` with the sign of
`y` (for the nonzero `y` arising here; IEEE signed zero is not modelled,
and `y = 0` behaves like positive zero). -/
noncomputable def copysign (x y : ℝ) : ℝ := if y < 0 then -|x| else |x|

/-- Transverse wave function of `square_selfenergy` (lines 660-666):
`psi_p_i[p, i] = sqrt(2/(width+1)) * sin(pi/(width+1) * (p+1) * (i+1))`. -/
noncomputable def psi_p_i (width p i : ℕ) : ℝ :=
  Real.sqrt (2 / (width + 1)) *
    Real.sin (π / (width + 1) * (p + 1) * (i + 1))

/-- Longitudinal integral of `square_selfenergy` (lines 669-673): inside
the band (`|q| ≤ 2`) the complex branch `q/2 - i*sqrt(1 - (q/2)^2)`,
outside the band the signed real branch
`q/2 - copysign(sqrt((q/2)^2 - 1), q)`. -/
noncomputable def f (q : ℝ) : ℂ :=
  if |q| ≤ 2 then
    ((q / 2 : ℝ) : ℂ) - Complex.I * ((Real.sqrt (1 - (q / 2) ^ 2) : ℝ) : ℂ)
  else
    ((q / 2 - copysign (Real.sqrt ((q / 2) ^ 2 - 1)) q : ℝ) : ℂ)

/-- Argument of the longitudinal integral for transverse index `p`
(lines 675-677): `q = (fermi_energy - e)/hopping - 2` with
`e = 2*hopping*(1 - cos(pi/(width+1)*(p+1)))`. -/
noncomputable def q_p (width : ℕ) (hopping fermi_energy : ℝ) (p : ℕ) : ℝ :=
  (fermi_energy - 2 * hopping * (1 - Real.cos (π / (width + 1) * (p + 1))))
    / hopping - 2

/-- Model of `square_selfenergy` (lines 641-686):
`result[i, j] = hopping * sum_p psi_p_i[p, i] * conj(psi_p_i[p, j]) * f_p[p]`. -/
noncomputable def square_selfenergy (width : ℕ) (hopping fermi_energy : ℝ) :
    Matrix (Fin width) (Fin width) ℂ :=
  Matrix.of fun i j => (hopping : ℂ) *
    ∑ p : Fin width,
      ((psi_p_i width p i : ℝ) : ℂ) *
        (starRingEnd ℂ) ((psi_p_i width p j : ℝ) : ℂ) *
        f (q_p width hopping fermi_energy p)

/-- Longitudinal integral exactly as worded by the claim: the signed real
branch is written with the sign function instead of `copysign`. -/
noncomputable def f_claim (q : ℝ) : ℂ :=
  if |q| ≤ 2 then
    ((q / 2 : ℝ) : ℂ) - Complex.I * ((Real.sqrt (1 - (q / 2) ^ 2) : ℝ) : ℂ)
  else
    ((q / 2 - Real.sign q * Real.sqrt ((q / 2) ^ 2 - 1) : ℝ) : ℂ)

/-- Transverse wave function exactly as worded by the claim:
`sqrt(2/(width+1)) * sin(pi*(p+1)*(i+1)/(width+1))`. -/
noncomputable def psi_claim (width p i : ℕ) : ℝ :=
  Real.sqrt (2 / (width + 1)) *
    Real.sin (π * (p + 1) * (i + 1) / (width + 1))

end KwantSq

namespace Kwant

/-- Concrete collaborator outputs used for evaluations: one singular value
far above threshold, well-conditioned LU factorizations, machine epsilon
zero (an exact-arithmetic idealization), and a two-mode propagating
subspace with velocities -1 and 1. -/
def orc_fast : Oracle ℤ :=
  ⟨[10], [[⟨1, 0⟩]], 1, 1, 1, 0, [-1, 1], [5, 7], [[⟨1, 0⟩]],
   [[⟨1, 0⟩]], [[⟨1, 0⟩]]⟩

/-- Concrete collaborator outputs describing a flat band: the regularized
on-site block still has reciprocal condition number below the threshold. -/
def orc_flat : Oracle ℤ :=
  ⟨[10], [[⟨1, 0⟩]], 0, 0, 1, 1, [-1, 1], [5, 7], [[⟨1, 0⟩]],
   [[⟨1, 0⟩]], [[⟨1, 0⟩]]⟩

/-- Output of `modes` on the fast path for the one-site lead evaluated
with `orc_fast`. -/
def out_fast : ModesOut ℤ :=
  ⟨[[⟨1, 0⟩]], [-1, 1], [5, 7], [[⟨1, 0⟩]], [[⟨1, 0⟩]], 1, none⟩

/-- Output of `modes` on the forced-stabilization path for the same
one-site lead: identical except that `sqrt_hop` is present. -/
def out_forced : ModesOut ℤ :=
  ⟨[[⟨1, 0⟩]], [-1, 1], [5, 7], [[⟨1, 0⟩]], [[⟨1, 0⟩]], 1, some [[⟨1, 0⟩]]⟩

end Kwant

namespace KwantSE

/-- Stabilized modes of a one-dimensional reduced problem with one
propagating pair: column 0 is the incoming propagating mode, column 1 the
outgoing propagating mode, and there are no evanescent columns. -/
def Sa1 : StabilizedModes ℚ 1 1 1 :=
  ⟨Matrix.of ![![1, 1]], Matrix.of ![![1, 1]], none⟩

/-- Same as `Sa1` except in the outgoing propagating column (index 1) of
`vecs`. -/
def Sb1 : StabilizedModes ℚ 1 1 1 :=
  ⟨Matrix.of ![![1, 2]], Matrix.of ![![1, 1]], none⟩

/-- Stabilized modes differing from `Sd1` only in the incoming
propagating column (index 0). -/
def Sc1 : StabilizedModes ℚ 1 1 1 :=
  ⟨Matrix.of ![![5, 1]], Matrix.of ![![9, 1]], none⟩

/-- Stabilized modes differing from `Sc1` only in the incoming
propagating column (index 0). -/
def Sd1 : StabilizedModes ℚ 1 1 1 :=
  ⟨Matrix.of ![![7, 1]], Matrix.of ![![4, 1]], none⟩

end KwantSE

namespace Kwant

variable {K : Type} [LinearOrderedCommRing K]

theorem np_abs_eq_abs (x : K) : np_abs x = |x| := by
  unfold np_abs
  split_ifs with h
  · exact (abs_of_neg h).symm
  · exact (abs_of_nonneg (le_of_not_lt h)).symm

theorem complex_any_eq_false {M : List (List (CQ K))}
    (h : ∀ row ∈ M, ∀ x ∈ row, x = 0) : complex_any M = false := by
  unfold complex_any
  rw [List.any_eq_false]
  intro row hrow
  rw [Bool.not_eq_true, List.any_eq_false]
  intro x hx
  simp [h row hrow x hx]

theorem complex_any_replicate (n m : ℕ) :
    complex_any (List.replicate n (List.replicate m (0 : CQ K))) = false := by
  apply complex_any_eq_false
  intro row hrow x hx
  rw [List.eq_of_mem_replicate hrow] at hx
  exact List.eq_of_mem_replicate hx

theorem ncols_replicate (n m : ℕ) (hn : 0 < n) :
    ncols (List.replicate n (List.replicate m (0 : CQ K))) = m := by
  cases n with
  | zero => exact absurd hn (by simp)
  | succ k => simp [ncols, List.replicate]

theorem countP_fst_zip {A : Type} (p : A → Bool) :
    ∀ (vs ms : List A), vs.length = ms.length →
      ((vs.zip ms).countP fun q => p q.1) = vs.countP p := by
  intro vs
  induction vs with
  | nil => intro ms _; simp
  | cons v vs ih =>
    intro ms h
    cases ms with
    | nil => simp at h
    | cons m ms =>
      simp only [List.zip_cons_cons, List.countP_cons]
      rw [ih ms (by simpa using h)]

/-- Claim C8: `setup_linsys` called with a hopping matrix that is
identically zero (every entry zero in both real and imaginary part)
fails with the degenerate-hopping error, for every cell Hamiltonian,
tolerance, stabilization policy — and for every collaborator oracle, so
before any decomposition output is consulted. -/
theorem claim_C8 (h_cell h_hop : List (List (CQ K))) (tol : K)
    (stab : Option (Option Bool × Bool)) (orc : Oracle K)
    (hzero : ∀ row ∈ h_hop, ∀ x ∈ row, x = 0) :
    setup_linsys h_cell h_hop tol stab orc = .error .degenerate_hopping := by
  unfold setup_linsys
  rw [if_pos]
  simp [complex_any_eq_false hzero]

/-- Witness for claim C8 at a concrete input. -/
theorem claim_C8_witness :
    (∀ row ∈ [[(0 : CQ ℤ)]], ∀ x ∈ row, x = 0) ∧
    setup_linsys (K := ℤ) [[⟨1, 0⟩]] [[0]] 1000000 none orc_fast =
      .error .degenerate_hopping :=
  ⟨by decide, claim_C8 _ _ _ _ _ (by decide)⟩

/-- Claim C5: in the general (stabilized) path of `setup_linsys`, the
flat-band error is raised exactly when regularization is attempted (the
anti-Hermitian term is added unconditionally, or the unregularized cell
Hamiltonian has reciprocal condition number below `eps`) and the
regularized LU factorization still has reciprocal condition number below
`eps = epsMach * tol`; in particular no flat-band error is raised when
regularization is attempted and the regularized rcond is at least `eps`. -/
theorem claim_C5 (h_cell h_hop : List (List (CQ K))) (tol : K)
    (stab : Option (Option Bool × Bool)) (orc : Oracle K)
    (hhop : complex_any h_hop = true)
    (hgen : ¬ (n_nonsing orc.s (orc.epsMach * tol) = h_cell.length ∧
               stab = none)) :
    (setup_linsys h_cell h_hop tol stab orc = .error .flat_band ↔
      ((add_imaginary (stab.getD (none, false)).1
          (all_real h_cell && all_real h_hop) = true ∨
        orc.rcondCell < orc.epsMach * tol) ∧
       orc.rcondReg < orc.epsMach * tol)) := by
  unfold setup_linsys
  rw [if_neg (by simp [hhop]), if_neg hgen]
  dsimp only
  split_ifs with h
  · refine iff_of_true rfl ?_
    simpa [Bool.and_eq_true, Bool.or_eq_true, decide_eq_true_eq] using h
  · refine iff_of_false (by simp) fun hr => h ?_
    simpa [Bool.and_eq_true, Bool.or_eq_true, decide_eq_true_eq] using hr

/-- Witness for claim C5 at a concrete input on which the flat-band error
fires: regularization is forced and the regularized rcond is below eps. -/
theorem claim_C5_witness :
    complex_any [[(⟨1, 0⟩ : CQ ℤ)]] = true ∧
    setup_linsys (K := ℤ) [[⟨1, 0⟩]] [[⟨1, 0⟩]] 1
        (some (some true, false)) orc_flat = .error .flat_band :=
  ⟨by decide,
   (claim_C5 [[⟨1, 0⟩]] [[⟨1, 0⟩]] 1 (some (some true, false)) orc_flat
      (by decide) (by decide)).mpr ⟨Or.inl (by decide), by decide⟩⟩

/-- Claim C4: `modes` on an identically zero hopping matrix of shape
(n, m) with a cell Hamiltonian of shape (n, n) does not fail and returns
the empty mode decomposition: `wave_functions` with n rows and zero
columns, empty velocities and momenta, and a stabilized set with
`nmodes = 0` (and `sqrt_hop` the empty (m, 0) array). -/
theorem claim_C4 (n m : ℕ) (h_cell : List (List (CQ K))) (tol : K)
    (stab : Option (Option Bool × Bool)) (orc : Oracle K) (hn : 0 < n)
    (hlen : h_cell.length = n) (hcols : ncols h_cell = n) :
    modes h_cell (List.replicate n (List.replicate m (0 : CQ K))) tol stab orc =
      .ok ⟨List.replicate n [], [], [], [], [], 0,
           some (List.replicate m [])⟩ := by
  unfold modes
  rw [if_neg (not_not_intro
    ⟨hlen.trans hcols.symm, by rw [hlen, List.length_replicate]⟩)]
  rw [if_pos (by simp [complex_any_replicate])]
  rw [hlen, ncols_replicate n m hn]

/-- Witness for claim C4 at a concrete 2-site cell with a (2, 1) zero
hopping. -/
theorem claim_C4_witness :
    (0 : ℕ) < 2 ∧
    modes (K := ℤ) [[⟨3, 0⟩, 0], [0, ⟨3, 0⟩]]
        (List.replicate 2 (List.replicate 1 0)) 1000000 none orc_fast =
      .ok ⟨List.replicate 2 [], [], [], [], [], 0,
           some (List.replicate 1 [])⟩ :=
  ⟨by decide,
   claim_C4 2 1 [[⟨3, 0⟩, 0], [0, ⟨3, 0⟩]] 1000000 none orc_fast
     (by decide) (by decide) (by decide)⟩

end Kwant

namespace Kwant

variable {K : Type} [LinearOrderedCommRing K]

theorem setup_linsys_vOut_none_iff (h_cell h_hop : List (List (CQ K)))
    (tol : K) (stab : Option (Option Bool × Bool)) (orc : Oracle K)
    (ls : SetupOut K)
    (h : setup_linsys h_cell h_hop tol stab orc = .ok ls) :
    (ls.vOut = none ↔
      (n_nonsing orc.s (orc.epsMach * tol) = h_cell.length ∧ stab = none)) := by
  unfold setup_linsys at h
  by_cases hhop : complex_any h_hop
  · rw [if_neg (by simp [hhop])] at h
    by_cases hc : n_nonsing orc.s (orc.epsMach * tol) = h_cell.length ∧
        stab = none
    · rw [if_pos hc] at h
      cases h
      exact iff_of_true rfl hc
    · rw [if_neg hc] at h
      dsimp only at h
      split_ifs at h
      cases h
      exact iff_of_false (by simp) hc
  · rw [if_pos (by simp [Bool.not_eq_true] at hhop; simp [hhop])] at h
    cases h

/-- Claim C3 (amended): for every successful call to `modes`, the
`sqrt_hop` field of the returned stabilized modes is absent exactly when
the fast path was taken, that is, when the hopping is nonzero with all
singular values above the threshold AND no stabilization was forced; with
forced stabilization `sqrt_hop` is present even for invertible hopping. -/
theorem claim_C3 (h_cell h_hop : List (List (CQ K))) (tol : K)
    (stab : Option (Option Bool × Bool)) (orc : Oracle K) (out : ModesOut K)
    (h : modes h_cell h_hop tol stab orc = .ok out) :
    (out.sqrt_hop = none ↔
      (complex_any h_hop = true ∧
       n_nonsing orc.s (orc.epsMach * tol) = h_cell.length ∧
       stab = none)) := by
  unfold modes at h
  by_cases hshape : h_cell.length = ncols h_cell ∧ h_cell.length = h_hop.length
  · rw [if_neg (not_not_intro hshape)] at h
    by_cases hhop : complex_any h_hop
    · rw [if_neg (by simp [hhop])] at h
      rcases hsl : setup_linsys h_cell h_hop tol stab orc with e | ls
      · rw [hsl] at h; cases h
      · rw [hsl] at h
        rcases hmp : make_proper_modes orc.propVelocities orc.propMomenta
            (orc.epsMach * tol) with e | sorted
        · rw [hmp] at h; cases h
        · rw [hmp] at h
          cases h
          simpa [hhop] using
            setup_linsys_vOut_none_iff h_cell h_hop tol stab orc ls hsl
    · rw [if_pos (by simpa using hhop)] at h
      cases h
      simp [Bool.not_eq_true] at hhop
      simp [hhop]
  · rw [if_pos (by simpa using hshape)] at h
    cases h

/-- Witness for claim C3: a fast-path run in which `sqrt_hop` is absent
and the right-hand side of the equivalence holds. -/
theorem claim_C3_witness :
    modes (K := ℤ) [[⟨2, 0⟩]] [[⟨1, 0⟩]] 1 none orc_fast = .ok out_fast ∧
    (out_fast.sqrt_hop = none ↔
      (complex_any [[(⟨1, 0⟩ : CQ ℤ)]] = true ∧
       n_nonsing orc_fast.s (orc_fast.epsMach * 1) = 1 ∧
       (none : Option (Option Bool × Bool)) = none)) :=
  ⟨by decide,
   claim_C3 [[⟨2, 0⟩]] [[⟨1, 0⟩]] 1 none orc_fast out_fast (by decide)⟩

/-- Counterexample to claim C3 as stated: a run of `modes` with an
invertible hopping (every singular value above the threshold, so
`n_nonsing` equals the cell dimension) but forced stabilization succeeds
and returns a present `sqrt_hop`, while the claim demands `sqrt_hop =
None` whenever the hopping is not singular. -/
theorem claim_C3_counterexample :
    modes (K := ℤ) [[⟨2, 0⟩]] [[⟨1, 0⟩]] 1 (some (some false, false))
        orc_fast = .ok out_forced ∧
    n_nonsing orc_fast.s (orc_fast.epsMach * 1) = 1 ∧
    out_forced.sqrt_hop ≠ none := by decide

end Kwant

namespace Kwant

variable {K : Type} [LinearOrderedCommRing K]

/-- Claim C6: the tail of `make_proper_modes` fails with the zero-velocity
error exactly when some computed velocity has magnitude strictly below the
threshold `vel_eps` (which the caller sets to machine epsilon times tol),
and on success every returned velocity has magnitude at least the
threshold. -/
theorem claim_C6 (velocities momenta : List K) (vel_eps : K) :
    (make_proper_modes velocities momenta vel_eps = .error .zero_velocity ↔
      ∃ v ∈ velocities, |v| < vel_eps) ∧
    (∀ out, make_proper_modes velocities momenta vel_eps = .ok out →
      ∀ p ∈ out, vel_eps ≤ |p.1|) := by
  unfold make_proper_modes
  by_cases h1 : (velocities.any fun v => decide (np_abs v < vel_eps)) = true
  · rw [if_pos h1]
    refine ⟨iff_of_true rfl ?_, ?_⟩
    · rcases List.any_eq_true.mp h1 with ⟨v, hv, hdec⟩
      refine ⟨v, hv, ?_⟩
      have := of_decide_eq_true hdec
      rwa [np_abs_eq_abs] at this
    · intro out hout
      cases hout
  · rw [if_neg h1]
    have hno : ∀ v ∈ velocities, ¬ |v| < vel_eps := by
      intro v hv hlt
      exact h1 (List.any_eq_true.mpr
        ⟨v, hv, decide_eq_true (by rwa [np_abs_eq_abs])⟩)
    constructor
    · split_ifs with h2
      · exact iff_of_false (by simp) fun ⟨v, hv, hlt⟩ => hno v hv hlt
      · exact iff_of_false (by simp) fun ⟨v, hv, hlt⟩ => hno v hv hlt
    · intro out hout p hp
      obtain ⟨a, b⟩ := p
      split_ifs at hout with h2
      · cases hout
        have hmem : (a, b) ∈ velocities.zip momenta :=
          (List.perm_insertionSort (mode_le (K := K))
            (velocities.zip momenta)).mem_iff.mp hp
        exact le_of_not_lt (hno a (List.of_mem_zip hmem).1)

/-- Witness for claim C6: a successful two-mode run in which the returned
velocities all clear the threshold. -/
theorem claim_C6_witness :
    make_proper_modes (K := ℤ) [-1, 1] [5, 7] 1 = .ok [(-1, 5), (1, 7)] ∧
    (1 : ℤ) ≤ |((-1, 5) : ℤ × ℤ).1| :=
  ⟨by decide,
   (claim_C6 (K := ℤ) [-1, 1] [5, 7] 1).2 [(-1, 5), (1, 7)] (by decide)
     (-1, 5) (by decide)⟩

/-- Counterexample to claim C7 as stated: on velocities `[0, 2, 2]` with
threshold 1 the negative-velocity count (0) differs from the
positive-velocity count (2), yet the call does not fail with the
mode-count-mismatch error — the zero-velocity check fires first. -/
theorem claim_C7_counterexample :
    make_proper_modes (K := ℤ) [0, 2, 2] [0, 0, 0] 1 =
      .error .zero_velocity ∧
    make_proper_modes (K := ℤ) [0, 2, 2] [0, 0, 0] 1 ≠
      .error .mode_count_mismatch ∧
    ([0, 2, 2].countP fun v => decide ((v : ℤ) < 0)) ≠
      ([0, 2, 2].countP fun v => decide ((0 : ℤ) < v)) := by decide

/-- Claim C7 (amended): provided the zero-velocity threshold is positive
and no velocity magnitude lies below it, the tail of `make_proper_modes`
fails with the mode-count-mismatch error exactly when the count of
strictly negative velocities differs from the count of strictly positive
ones; consequently every successful call returns as many modes as were
supplied, with exactly half of strictly negative and half of strictly
positive velocity. -/
theorem claim_C7 (velocities momenta : List K) (vel_eps : K)
    (hlen : velocities.length = momenta.length) (hpos : 0 < vel_eps)
    (hth : ∀ v ∈ velocities, vel_eps ≤ |v|) :
    (make_proper_modes velocities momenta vel_eps =
        .error .mode_count_mismatch ↔
      (velocities.countP fun v => decide (v < 0)) ≠
        (velocities.countP fun v => decide (0 < v))) ∧
    (∀ out, make_proper_modes velocities momenta vel_eps = .ok out →
      out.length = velocities.length ∧
      2 * (out.countP fun p => decide (p.1 < 0)) = out.length ∧
      2 * (out.countP fun p => decide (0 < p.1)) = out.length) := by
  have h1 : (velocities.any fun v => decide (np_abs v < vel_eps)) = false := by
    rw [List.any_eq_false]
    intro v hv
    simp only [decide_eq_true_eq, np_abs_eq_abs]
    exact not_lt.mpr (hth v hv)
  have hnz : ∀ v ∈ velocities, v ≠ 0 := by
    intro v hv h0
    have := hth v hv
    rw [h0, abs_zero] at this
    exact absurd this (not_le.mpr hpos)
  have hsum : (velocities.countP fun v => decide (v < 0)) +
      (velocities.countP fun v => decide (0 < v)) = velocities.length := by
    have htot := List.length_eq_countP_add_countP
      (p := fun v => decide (v < 0)) (l := velocities)
    have hc : (velocities.countP fun a => decide ¬(decide (a < 0) = true)) =
        velocities.countP fun v => decide (0 < v) := by
      apply List.countP_congr
      intro x hx
      simp only [decide_eq_true_eq]
      exact ⟨fun h => lt_of_le_of_ne (not_lt.mp h) (Ne.symm (hnz x hx)),
             fun h => not_lt.mpr (le_of_lt h)⟩
    omega
  unfold make_proper_modes
  rw [if_neg (by simp [h1])]
  constructor
  · split_ifs with h2
    · exact iff_of_false (by simp) (by omega)
    · exact iff_of_true rfl (by omega)
  · intro out hout
    split_ifs at hout with h2
    · cases hout
      have hperm := List.perm_insertionSort (mode_le (K := K))
        (velocities.zip momenta)
      have hlenz : (velocities.zip momenta).length = velocities.length := by
        rw [List.length_zip, hlen, min_self]
      have hneg : (List.countP (fun p => decide (p.1 < 0))
          (List.insertionSort mode_le (velocities.zip momenta))) =
          velocities.countP fun v => decide (v < 0) := by
        rw [hperm.countP_eq]
        exact countP_fst_zip (fun v => decide (v < 0)) velocities momenta hlen
      have hposc : (List.countP (fun p => decide (0 < p.1))
          (List.insertionSort mode_le (velocities.zip momenta))) =
          velocities.countP fun v => decide (0 < v) := by
        rw [hperm.countP_eq]
        exact countP_fst_zip (fun v => decide (0 < v)) velocities momenta hlen
      refine ⟨by rw [hperm.length_eq, hlenz], ?_, ?_⟩
      · rw [hneg, hperm.length_eq, hlenz, h2]
      · rw [hposc, hperm.length_eq, hlenz]
        omega

/-- Witness for claim C7: a balanced two-mode run, on which neither error
fires and the returned modes split evenly by velocity sign. -/
theorem claim_C7_witness :
    (0 : ℤ) < 1 ∧
    ((make_proper_modes (K := ℤ) [-1, 1] [5, 7] 1 =
        .error .mode_count_mismatch ↔
      ([-1, 1].countP fun v => decide ((v : ℤ) < 0)) ≠
        ([-1, 1].countP fun v => decide ((0 : ℤ) < v))) ∧
    (∀ out, make_proper_modes (K := ℤ) [-1, 1] [5, 7] 1 = .ok out →
      out.length = [-1, 1].length ∧
      2 * (out.countP fun p => decide (p.1 < 0)) = out.length ∧
      2 * (out.countP fun p => decide (0 < p.1)) = out.length)) :=
  ⟨by decide,
   claim_C7 [-1, 1] [5, 7] 1 (by decide) (by decide) (by decide)⟩

/-- Claim C2 (code behavior at the failing input): with two incoming
modes of momenta 1 and 2 and two outgoing modes of momenta 1 and 2, the
embedded `np.lexsort` ordering of line 506 returns the negative-velocity
half sorted by ascending momentum and the positive-velocity half sorted
by descending momentum — the reverse of the ordering stated by the claim
and by the docstrings of `PropagatingModes` and `modes`, which would have
been `[(-1, 2), (-1, 1), (1, 1), (1, 2)]`. -/
theorem claim_C2_code_behavior :
    make_proper_modes (K := ℤ) [-1, -1, 1, 1] [1, 2, 1, 2] 1 =
      .ok [(-1, 1), (-1, 2), (1, 2), (1, 1)] ∧
    make_proper_modes (K := ℤ) [-1, -1, 1, 1] [1, 2, 1, 2] 1 ≠
      .ok [(-1, 2), (-1, 1), (1, 1), (1, 2)] := by decide

end Kwant

namespace KwantSE

theorem selfenergy_Sa1_eval : selfenergy Sa1 = Sum.inr (Matrix.of ![![(1 : ℚ)]]) := by
  unfold selfenergy Sa1
  simp only [sigma_formula_plain, msolve]
  congr 1
  ext i j
  fin_cases i
  fin_cases j
  simp [sliceFrom, Matrix.det_fin_one, Matrix.adjugate_fin_one,
    Matrix.mul_apply, Matrix.transpose_apply, Matrix.smul_apply]

theorem selfenergy_Sb1_eval : selfenergy Sb1 = Sum.inr (Matrix.of ![![(2 : ℚ)]]) := by
  unfold selfenergy Sb1
  simp only [sigma_formula_plain, msolve]
  congr 1
  ext i j
  fin_cases i
  fin_cases j
  simp [sliceFrom, Matrix.det_fin_one, Matrix.adjugate_fin_one,
    Matrix.mul_apply, Matrix.transpose_apply, Matrix.smul_apply]

/-- Claim C1 (amended): `StabilizedModes.selfenergy` is computed from the
columns of `vecs` and `vecslmbdainv` starting at `nmodes` — the outgoing
propagating columns together with the evanescent columns, not the
evanescent columns alone — via the two claimed formulas.  Concretely: the
result is unchanged under any modification of the first `nmodes`
(incoming) columns, and equals
`sqrt_hop . vecs_block . solve(vecslmbdainv_block, sqrt_hop^H)` when
`sqrt_hop` is present and `solve(vecslmbdainv_block^T, vecs_block^T)^T`
otherwise, where the blocks are the column slices from `nmodes` on. -/
theorem claim_C1 {K : Type} [Field K] [StarRing K] [DecidableEq K]
    {n nmodes m : ℕ} (Sa Sb : StabilizedModes K n nmodes m)
    (hv : ∀ (i j : Fin n),
      Sa.vecs i (Fin.natAdd nmodes j) = Sb.vecs i (Fin.natAdd nmodes j))
    (hl : ∀ (i j : Fin n),
      Sa.vecslmbdainv i (Fin.natAdd nmodes j) =
        Sb.vecslmbdainv i (Fin.natAdd nmodes j))
    (hs : Sa.sqrt_hop = Sb.sqrt_hop) :
    selfenergy Sa = selfenergy Sb ∧
    selfenergy Sa = (match Sa.sqrt_hop with
      | some v => Sum.inl (sigma_formula_sqrt v (sliceFrom Sa.vecs)
          (sliceFrom Sa.vecslmbdainv))
      | none => Sum.inr (sigma_formula_plain (sliceFrom Sa.vecs)
          (sliceFrom Sa.vecslmbdainv))) := by
  have hv2 : sliceFrom Sa.vecs = sliceFrom Sb.vecs := by
    ext i j
    exact hv i j
  have hl2 : sliceFrom Sa.vecslmbdainv = sliceFrom Sb.vecslmbdainv := by
    ext i j
    exact hl i j
  constructor
  · unfold selfenergy
    rw [hv2, hl2, hs]
  · rcases hsh : Sa.sqrt_hop with _ | v <;>
      simp [selfenergy, hsh, sigma_formula_sqrt, sigma_formula_plain]

/-- Witness for claim C1: two stabilized-mode sets that differ in their
incoming (first `nmodes`) columns but agree from column `nmodes` on have
equal self-energies. -/
theorem claim_C1_witness :
    Sc1.vecs 0 (Fin.natAdd 1 0) = Sd1.vecs 0 (Fin.natAdd 1 0) ∧
    Sc1.vecslmbdainv 0 (Fin.natAdd 1 0) = Sd1.vecslmbdainv 0 (Fin.natAdd 1 0) ∧
    Sc1.sqrt_hop = Sd1.sqrt_hop ∧
    Sc1.vecs 0 0 ≠ Sd1.vecs 0 0 ∧
    selfenergy Sc1 = selfenergy Sd1 :=
  ⟨by decide, by decide, rfl, by decide,
   (claim_C1 Sc1 Sd1 (by decide) (by decide) rfl).1⟩

/-- Counterexample to claim C1 as stated: `Sa1` and `Sb1` agree on every
evanescent column (with `n = nmodes = 1` there are none: by the documented
invariant column 0 is the incoming and column 1 the outgoing propagating
mode), agree on `sqrt_hop` and on the incoming column, and differ only in
the outgoing propagating column 1 — yet their self-energies differ, so a
propagating column does enter the self-energy formula. -/
theorem claim_C1_counterexample :
    Sa1.vecslmbdainv = Sb1.vecslmbdainv ∧
    Sa1.sqrt_hop = Sb1.sqrt_hop ∧
    Sa1.vecs 0 0 = Sb1.vecs 0 0 ∧
    Sa1.vecs 0 1 ≠ Sb1.vecs 0 1 ∧
    selfenergy Sa1 ≠ selfenergy Sb1 := by
  refine ⟨rfl, rfl, rfl, by decide, ?_⟩
  rw [selfenergy_Sa1_eval, selfenergy_Sb1_eval]
  intro h
  have h2 : (Matrix.of ![![(1 : ℚ)]]) = Matrix.of ![![(2 : ℚ)]] :=
    Sum.inr.inj h
  have h4 : (1 : ℚ) = 2 := Matrix.ext_iff.mpr h2 0 0
  norm_num at h4

end KwantSE

namespace KwantSq

open scoped Real

theorem psi_eq_psi_claim (width p i : ℕ) :
    psi_p_i width p i = psi_claim width p i := by
  unfold psi_p_i psi_claim
  have harg : π / ((width : ℝ) + 1) * ((p : ℝ) + 1) * ((i : ℝ) + 1) =
      π * ((p : ℝ) + 1) * ((i : ℝ) + 1) / ((width : ℝ) + 1) := by ring
  rw [harg]

theorem f_eq_f_claim (q : ℝ) : f q = f_claim q := by
  unfold f f_claim
  by_cases h : |q| ≤ 2
  · rw [if_pos h, if_pos h]
  · rw [if_neg h, if_neg h, Complex.ofReal_inj]
    have hq : q ≠ 0 := fun h0 => h (by rw [h0]; norm_num)
    unfold copysign
    by_cases hneg : q < 0
    · rw [if_pos hneg, Real.sign_of_neg hneg,
        abs_of_nonneg (Real.sqrt_nonneg _)]
      ring
    · have hpos : 0 < q := lt_of_le_of_ne (not_lt.mp hneg) (Ne.symm hq)
      rw [if_neg hneg, Real.sign_of_pos hpos,
        abs_of_nonneg (Real.sqrt_nonneg _)]
      ring

/-- Claim C9: every entry of `square_selfenergy` equals
`hopping * sum_p psi[p, i] * psi[p, j] * f_p` with
`psi[p, i] = sqrt(2/(width+1)) * sin(pi*(p+1)*(i+1)/(width+1))` and with
the longitudinal factor given by the complex branch
`q/2 - i*sqrt(1 - (q/2)^2)` inside the band (`|q| ≤ 2`) and by the signed
real branch `q/2 - sign(q)*sqrt((q/2)^2 - 1)` outside it, at
`q = (fermi_energy - 2*hopping*(1 - cos(pi*(p+1)/(width+1))))/hopping - 2`. -/
theorem claim_C9 (width : ℕ) (hopping fermi_energy : ℝ) (i j : Fin width) :
    square_selfenergy width hopping fermi_energy i j =
      (hopping : ℂ) * ∑ p : Fin width,
        ((psi_claim width p i : ℝ) : ℂ) * ((psi_claim width p j : ℝ) : ℂ) *
          f_claim ((fermi_energy -
            2 * hopping * (1 - Real.cos (π * ((p : ℝ) + 1) / ((width : ℝ) + 1)))) /
              hopping - 2) := by
  unfold square_selfenergy
  rw [Matrix.of_apply]
  congr 1
  apply Finset.sum_congr rfl
  intro p _
  have harg : π / ((width : ℝ) + 1) * ((p : ℝ) + 1) =
      π * ((p : ℝ) + 1) / ((width : ℝ) + 1) := by ring
  rw [Complex.conj_ofReal, psi_eq_psi_claim width p i,
    psi_eq_psi_claim width p j, f_eq_f_claim]
  simp only [q_p]
  rw [harg]

/-- Claim C10: for width at least 1 and nonzero real hopping,
`square_selfenergy` is symmetric entry by entry (not merely Hermitian),
because the transverse wave functions are real, so the conjugation in the
summand has no effect. -/
theorem claim_C10 (width : ℕ) (hopping fermi_energy : ℝ) (hw : 1 ≤ width)
    (hh : hopping ≠ 0) (i j : Fin width) :
    square_selfenergy width hopping fermi_energy i j =
      square_selfenergy width hopping fermi_energy j i := by
  unfold square_selfenergy
  rw [Matrix.of_apply, Matrix.of_apply]
  congr 1
  apply Finset.sum_congr rfl
  intro p _
  rw [Complex.conj_ofReal, Complex.conj_ofReal]
  ring

/-- Witness for claim C10 on the width-2 strip at unit hopping. -/
theorem claim_C10_witness :
    1 ≤ 2 ∧ (1 : ℝ) ≠ 0 ∧
    square_selfenergy 2 1 0 0 1 = square_selfenergy 2 1 0 1 0 :=
  ⟨by decide, one_ne_zero, claim_C10 2 1 0 (by decide) one_ne_zero 0 1⟩

end KwantSq
